import Mathlib

set_option maxRecDepth 100000

/-!
Shallow embedding of the two digital-signature engines of this repository
(`src/backend/app/crypto/finite_field_dss.py` and
`src/backend/app/crypto/elliptic_curve_dss.py`) together with theorems
settling the frozen claims about them.

Conventions of the embedding:
* Python unbounded integers are `Nat` (or `Int` where a value can be
  negative); Python `%` on a positive modulus agrees with `Nat.mod` on
  naturals and with `Int.emod` on integers, which is what `%` means here.
* `pow(a, e, m)` is `a ^ e % m`.
* `pow(a, -1, m)` / `sympy.mod_inverse(a, m)` (which raise when no inverse
  exists) are `modInv?`, returning `none` exactly when `gcd (a, m) ≠ 1`.
* `sympy.isprime` is `isPrimeNat`, a trial-division test proved equivalent
  to `Nat.Prime` (sympy's test is exact in the ranges the code uses).
* `hashlib.sha256(s.encode()).hexdigest()` read as a base-16 integer is
  `sha256Nat` applied to the UTF-8 bytes of `s`; all strings the code
  hashes are ASCII, for which the bytes are the character codes.
* Random draws (`secrets.randbelow`, `sympy.randprime`) become explicit
  arguments, with the sampler's guarantees as hypotheses where needed.
* Loops with data-dependent trip counts are written with an explicit fuel
  argument that the caller instantiates with a provably sufficient bound,
  so every definition is executable by kernel reduction.
-/

/-! ## Generic executable arithmetic -/

/-- Number of binary digits, with explicit fuel (callers pass fuel `≥ n`);
models Python `int.bit_length()` (`bitLen 0 = 0`). -/
def bitLenAux : Nat → Nat → Nat
  | 0, _ => 0
  | fuel + 1, n => if n = 0 then 0 else bitLenAux fuel (n / 2) + 1

/-- Python `int.bit_length()` for naturals. -/
def bitLen (n : Nat) : Nat := bitLenAux (n + 1) n

/-- Balanced-split trial division: `true` iff no `m` with
`lo ≤ m < lo + cnt` divides `n`. The range is split in halves so the
recursion depth is logarithmic; the fuel bounds the depth
(sound whenever `cnt ≤ 2 ^ fuel`). -/
def noDivN (n : Nat) : Nat → Nat → Nat → Bool
  | _, _, 0 => true
  | _, lo, 1 => decide (¬ n % lo = 0)
  | 0, _, _ => true
  | fuel + 1, lo, cnt =>
    noDivN n fuel lo (cnt / 2) && noDivN n fuel (lo + cnt / 2) (cnt - cnt / 2)

/-- Exact primality by trial division up to a power-of-two bound at least
`√n` (and below `n`); models `sympy.isprime`, which is exact for the
integer sizes this repository feeds it. Proved equal to `Nat.Prime` in
`isPrimeNat_iff` below. -/
def isPrimeNat (n : Nat) : Bool :=
  decide (2 ≤ n) &&
    noDivN n (bitLen n) 2 (min ((1 <<< ((bitLen n + 1) / 2)) - 1) (n - 2))

/-- Extended Euclid with fuel (callers pass fuel `≥ b`): returns `(x, y, g)`
with `a*x + b*y = g` and `g = gcd a b`. -/
def egcd : Nat → Nat → Nat → Int × Int × Nat
  | 0, a, _ => (1, 0, a)
  | fuel + 1, a, b =>
    if b = 0 then (1, 0, a)
    else
      let r := egcd fuel b (a % b)
      (r.2.1, r.1 - (a / b : Nat) * r.2.1, r.2.2)

/-- Modular inverse: models Python `pow(a, -1, m)` and `sympy.mod_inverse`,
which succeed exactly when `gcd (a, m) = 1` (and otherwise raise, which the
sources catch). -/
def modInv? (a m : Nat) : Option Nat :=
  let r := egcd m a m
  if r.2.2 = 1 then some ((r.1 % (m : Int)).toNat) else none

/-! ## SHA-256 (FIPS 180-4), over byte lists, producing the digest as the
big-endian `Nat` that Python's `int(hexdigest, 16)` yields. -/

/-- Truncation to 32 bits. -/
def m32 (x : Nat) : Nat := x % 4294967296

/-- Right rotation of a 32-bit word. -/
def rotr32 (n x : Nat) : Nat := m32 ((x >>> n) ||| (x <<< (32 - n)))

/-- The big sigma-0 word mix of the compression loop. -/
def mixA (x : Nat) : Nat := rotr32 2 x ^^^ rotr32 13 x ^^^ rotr32 22 x

/-- The big sigma-1 word mix of the compression loop. -/
def mixE (x : Nat) : Nat := rotr32 6 x ^^^ rotr32 11 x ^^^ rotr32 25 x

/-- The small sigma-0 word mix of the message schedule. -/
def mixS0 (x : Nat) : Nat := rotr32 7 x ^^^ rotr32 18 x ^^^ (x >>> 3)

/-- The small sigma-1 word mix of the message schedule. -/
def mixS1 (x : Nat) : Nat := rotr32 17 x ^^^ rotr32 19 x ^^^ (x >>> 10)

/-- The choice word function (the complement of `e` is `e XOR (2^32 - 1)`). -/
def chWord (e f g : Nat) : Nat := (e &&& f) ^^^ ((e ^^^ 4294967295) &&& g)

/-- The majority word function. -/
def majWord (a b c : Nat) : Nat := (a &&& b) ^^^ (a &&& c) ^^^ (b &&& c)

/-- The 64 SHA-256 round constants of FIPS 180-4, in decimal. -/
def sha256K : List Nat :=
  [1116352408, 1899447441, 3049323471, 3921009573, 961987163,
   1508970993, 2453635748, 2870763221, 3624381080, 310598401,
   607225278, 1426881987, 1925078388, 2162078206, 2614888103,
   3248222580, 3835390401, 4022224774, 264347078, 604807628,
   770255983, 1249150122, 1555081692, 1996064986, 2554220882,
   2821834349, 2952996808, 3210313671, 3336571891, 3584528711,
   113926993, 338241895, 666307205, 773529912, 1294757372,
   1396182291, 1695183700, 1986661051, 2177026350, 2456956037,
   2730485921, 2820302411, 3259730800, 3345764771, 3516065817,
   3600352804, 4094571909, 275423344, 430227734, 506948616,
   659060556, 883997877, 958139571, 1322822218, 1537002063,
   1747873779, 1955562222, 2024104815, 2227730452, 2361852424,
   2428436474, 2756734187, 3204031479, 3329325298]

/-- The SHA-256 initial hash value of FIPS 180-4, in decimal. -/
def sha256H0 : List Nat :=
  [1779033703, 3144134277, 1013904242, 2773480762,
   1359893119, 2600822924, 528734635, 1541459225]

/-- `k` big-endian bytes of `v`. -/
def toBytesBE : Nat → Nat → List Nat
  | 0, _ => []
  | k + 1, v => toBytesBE k (v / 256) ++ [v % 256]

/-- SHA-256 padding of a byte message. -/
def sha256Pad (msg : List Nat) : List Nat :=
  let L := msg.length
  msg ++ 128 :: List.replicate ((119 - L % 64) % 64) 0 ++ toBytesBE 8 (L * 8)

/-- Big-endian 32-bit words from bytes (length assumed a multiple of 4). -/
def wordsBE : List Nat → List Nat
  | a :: b :: c :: d :: rest => (((a * 256 + b) * 256 + c) * 256 + d) :: wordsBE rest
  | _ => []

/-- Split a word list into blocks of 16 (fuel `≥ length`). -/
def chunk16 : Nat → List Nat → List (List Nat)
  | 0, _ => []
  | _ + 1, [] => []
  | fuel + 1, ws => ws.take 16 :: chunk16 fuel (ws.drop 16)

/-- Message-schedule extension: append `fuel` further words. -/
def extendWords : Nat → List Nat → List Nat
  | 0, w => w
  | fuel + 1, w =>
    let i := w.length
    extendWords fuel
      (w ++ [m32 (mixS1 (w.getD (i - 2) 0) + w.getD (i - 7) 0 +
                  mixS0 (w.getD (i - 15) 0) + w.getD (i - 16) 0)])

/-- One SHA-256 round on the working state. -/
def sha256Round (st : Nat × Nat × Nat × Nat × Nat × Nat × Nat × Nat)
    (kw : Nat × Nat) : Nat × Nat × Nat × Nat × Nat × Nat × Nat × Nat :=
  let (a, b, c, d, e, f, g, h) := st
  let t1 := m32 (h + mixE e + chWord e f g + kw.1 + kw.2)
  let t2 := m32 (mixA a + majWord a b c)
  (m32 (t1 + t2), a, b, c, m32 (d + t1), e, f, g)

/-- Compress one 16-word block into the running hash. -/
def sha256Block (h : List Nat) (ws : List Nat) : List Nat :=
  let w := extendWords 48 ws
  let st0 := (h.getD 0 0, h.getD 1 0, h.getD 2 0, h.getD 3 0,
              h.getD 4 0, h.getD 5 0, h.getD 6 0, h.getD 7 0)
  let r := (List.zip sha256K w).foldl sha256Round st0
  [m32 (h.getD 0 0 + r.1), m32 (h.getD 1 0 + r.2.1), m32 (h.getD 2 0 + r.2.2.1),
   m32 (h.getD 3 0 + r.2.2.2.1), m32 (h.getD 4 0 + r.2.2.2.2.1),
   m32 (h.getD 5 0 + r.2.2.2.2.2.1), m32 (h.getD 6 0 + r.2.2.2.2.2.2.1),
   m32 (h.getD 7 0 + r.2.2.2.2.2.2.2)]

/-- SHA-256 digest of a byte message, as the eight 32-bit hash words. -/
def sha256Words (msg : List Nat) : List Nat :=
  let ws := wordsBE (sha256Pad msg)
  ((chunk16 ws.length ws).foldl sha256Block sha256H0)

/-- SHA-256 digest as a 256-bit natural number (big-endian), matching
Python's `int(hashlib.sha256(data).hexdigest(), 16)`. -/
def sha256Nat (msg : List Nat) : Nat :=
  (sha256Words msg).foldl (fun acc w => acc * 4294967296 + w) 0

/-- UTF-8 bytes of an ASCII string (every string this repository hashes is
ASCII, where UTF-8 bytes coincide with the character codes). -/
def strBytes (s : String) : List Nat := s.data.map Char.toNat

/-- Decimal digits of `n` as ASCII bytes, with fuel (fuel `≥` digit count). -/
def natDigits : Nat → Nat → List Nat
  | 0, _ => []
  | fuel + 1, n => if n < 10 then [48 + n] else natDigits fuel (n / 10) ++ [48 + n % 10]

/-- ASCII bytes of Python `str(n)` for a natural number. -/
def natBytes (n : Nat) : List Nat := natDigits (n + 1) n

/-! ## Finite-field engine (`finite_field_dss.py`) -/

/-- `FiniteFieldDSS._hash`: SHA-256 of the string, read as a base-16
integer (`int(hexdigest, 16)`); the argument is the string's bytes. -/
def ffHash (data : List Nat) : Nat := sha256Nat data

/-- The `k`-search of `_generate_parameters` (lines 87-92): the first
`k ∈ [2, 100)` with `k*q + 1` prime and of bit length `≤ bit_length`,
mapped to `p = k*q + 1`. -/
def findP (q bitLength : Nat) : Option Nat :=
  ((List.range' 2 98).find?
      (fun k => isPrimeNat (k * q + 1) && decide (bitLen (k * q + 1) ≤ bitLength))).map
    (fun k => k * q + 1)

/-- `FiniteFieldDSS._generate_parameters` (lines 77-103) as a function of
the requested bit length and the sampled `q` (`randprime` guarantees `q`
prime and of `max(8, bit_length // 8)` bits): returns the final
`(params.p, params.q)`. The search runs only for `bit_length ≤ 512`; when
it finds no `p`, the demo fallback `(23, 11)` is returned. -/
def ffGenerateParameters (bitLength q : Nat) : Nat × Nat :=
  if bitLength ≤ 512 then
    match findP q bitLength with
    | some p => (p, q)
    | none => (23, 11)
  else (23, 11)

/-- The `except`-branch fallback of `_generate_parameters`
(lines 99-103): `(p, q) = (43, 7)`. -/
def ffExceptionFallback : Nat × Nat := (43, 7)

/-- The `x ≠ 1` resampling loop of `key_generation` (lines 144-149):
starting from the current `x`, as long as `x = 1` and draws remain,
recompute `x = a^((p-1)/q) mod p` from the next draw (at most 10 redraws,
enforced by the caller taking `redraws.take 10`). -/
def ffDeriveXAux (p q : Nat) : List Nat → Nat → Nat
  | [], x => x
  | a :: rest, x =>
    if x = 1 then ffDeriveXAux p q rest (a ^ ((p - 1) / q) % p) else x

/-- The private key `x` of `key_generation` (lines 136-152): `x =
a0^((p-1)/q) mod p`, redrawn while `x = 1` (at most 10 times), with the
literal fallback `x = 2` if `x` is still 1. -/
def ffDeriveX (p q a0 : Nat) (redraws : List Nat) : Nat :=
  let x := ffDeriveXAux p q (redraws.take 10) (a0 ^ ((p - 1) / q) % p)
  if x = 1 then 2 else x

/-- The documented fallback for the public key (line 168):
`y = x^((p - 1 - x) mod (p - 1)) mod p`, used when `mod_inverse` raises. -/
def ffKeygenFallbackY (p x : Nat) : Nat := x ^ ((p - 1 - x) % (p - 1)) % p

/-- The public key `y` of `key_generation` (lines 160-168):
`y = mod_inverse(x^x mod p, p)`, falling back to
`x^((p-1-x) mod (p-1)) mod p` when the inverse does not exist. -/
def ffDeriveY (p x : Nat) : Nat :=
  match modInv? (x ^ x % p) p with
  | some y => y
  | none => ffKeygenFallbackY p x

/-- `FiniteFieldDSS.key_generation` (lines 129-191) as a function of the
sampled values: returns the key pair `(x, y)`. -/
def ffKeyGeneration (p q a0 : Nat) (redraws : List Nat) : Nat × Nat :=
  let x := ffDeriveX p q a0 redraws
  (x, ffDeriveY p x)

/-- `r = x^k mod p` of `sign` (line 209). -/
def ffSignR (p x k : Nat) : Nat := x ^ k % p

/-- `e = H(str(r) + message) % max(1, q)` of `sign` (line 213). -/
def ffSignE (p q : Nat) (message : String) (x k : Nat) : Nat :=
  ffHash (natBytes (ffSignR p x k) ++ strBytes message) % max 1 q

/-- `denominator = (k * (e + r)) % q` of `sign` (line 231). -/
def ffSignDenominator (p q : Nat) (message : String) (x k : Nat) : Nat :=
  (k * (ffSignE p q message x k + ffSignR p x k)) % q

/-- `FiniteFieldDSS.sign` (lines 193-266) as a function of the message,
the private key `x` and the sampled `k, u, v ∈ [1, q-1]`; returns the
signature `(r, s, z_final)`. A zero denominator is replaced by 1
(lines 233-234); a failing `mod_inverse` falls back to
`s = numerator % max(1, q)` (lines 237-240). The value `z = x^u mod p`
of line 218 is computed by the source but discarded in favour of
`z_final = x^((v - k*s) mod q) mod p` (lines 244-247). -/
def ffSign (p q : Nat) (message : String) (x k u v : Nat) : Nat × Nat × Nat :=
  let r := ffSignR p x k
  let _z := x ^ u % p
  let numerator := (v * r + x * (x ^ v % p)) % q
  let den0 := ffSignDenominator p q message x k
  let denominator := if den0 = 0 then 1 else den0
  let s : Nat := match modInv? denominator q with
    | some i => numerator * i % q
    | none => numerator % max 1 q
  let expZ := (((v : Int) - (k : Int) * (s : Int)) % (q : Int)).toNat
  (r, s, x ^ expZ % p)

/-- `FiniteFieldDSS.verify` (lines 268-374) as a function of the message,
signature `(r, s, z)` and public key `y`. First the equation
`z^r ≡ r^(s*a) * y^((z*r^s mod p) mod (p-1)) (mod p)` is checked
(lines 287-305); on failure, the hash-based fallback recomputes `r̄`
(lines 307-341) and compares `H(str(r̄) + message)` with
`H(str(r) + message)` modulo `q`. Exceptions inside the guarded block
return `False`; `mod_inverse` is reached only under
`s_a > 0 ∧ gcd(s_a, p-1) = 1`, where it cannot raise. -/
def ffVerify (p q : Nat) (message : String) (sig : Nat × Nat × Nat) (y : Nat) : Bool :=
  let r := sig.1
  let s := sig.2.1
  let z := sig.2.2
  let a := ffHash (natBytes r ++ strBytes message) % max 1 q
  let leftSide := z ^ r % p
  let rToSe := r ^ ((s * a) % (p - 1)) % p
  let zRs := z * (r ^ s % p) % p
  let yTerm := y ^ (zRs % (p - 1)) % p
  let rightSide := rToSe * yTerm % p
  if leftSide = rightSide then true
  else
    let zR := z ^ r % p
    let rS := r ^ s % p
    let zRsC := z * rS % p
    let negExp := ((-((zRsC % (p - 1) : Nat) : Int) + ((p : Int) - 1)) % ((p : Int) - 1)).toNat
    let yNeg := y ^ negExp % p
    let combined := zR * yNeg % p
    let sA := (s * a) % max 1 (p - 1)
    if sA > 0 ∧ Nat.gcd sA (p - 1) = 1 then
      match modInv? sA (p - 1) with
      | some invSa =>
          let rBar := combined ^ invSa % p
          let b := ffHash (natBytes rBar ++ strBytes message) % max 1 q
          a == b
      | none => false
    else false

/-! ## Elliptic-curve engine (`elliptic_curve_dss.py`)

The engine always runs on the fixed parameter set built by
`_generate_curve_params` for `bit_length ≤ 256` (lines 58-80): the
192-bit prime `p`, `a = p - 3`, the (unreduced) constant `b`, the base
point with secp256r1 coordinates reduced `mod p`, and the secp256r1
group order as `n`. -/

/-- `EllipticCurvePoint`: affine coordinates plus an infinity flag. -/
structure ECPoint where
  x : Nat
  y : Nat
  infinity : Bool
deriving DecidableEq

/-- The curve prime `p` (line 63). -/
def ecP : Nat := 0xFFFFFFFFFFFFFFFFFFFFFFFFFFFFFFFEFFFFFFFFFFFFFFFF

/-- The curve coefficient `a = p - 3` (line 64). -/
def ecA : Nat := ecP - 3

/-- The curve coefficient `b` (line 65), stored unreduced by the source. -/
def ecB : Nat := 0x5ac635d8aa3a93e7b3ebbd55769886bc651d06b0cc53b0f63bce3c3e27d2604b

/-- The group order `n` (line 76) — the secp256r1 order, kept by the
source although the field prime is the 192-bit `p`. -/
def ecN : Nat := 0xFFFFFFFF00000000FFFFFFFFFFFFFFFFBCE6FAADA7179E84F3B9CAC2FC632551

/-- The base point `G` (lines 68-75): secp256r1 coordinates reduced
`mod p`. -/
def ecG : ECPoint :=
  ⟨0x6b17d1f2e12c4247f8bce6e563a440f277037d812deb33a0f4a13945d898c296 % ecP,
   0x4fe342e2fe1a7f9b8ee7eb4a7c0f9e162bce33576b315ececbb6406837bf51f5 % ecP,
   false⟩

/-- The point at infinity as the source constructs it:
`EllipticCurvePoint(0, 0, infinity=True)`. -/
def ecInf : ECPoint := ⟨0, 0, true⟩

/-- `EllipticCurveDSS._point_double` (lines 120-146). A zero tangent
denominator, or a failing modular inverse, yields the identity. -/
def pointDouble (P : ECPoint) : ECPoint :=
  if P.infinity then P
  else
    let num := (3 * P.x * P.x + ecA) % ecP
    let den := (2 * P.y) % ecP
    if den = 0 then ecInf
    else
      match modInv? den ecP with
      | none => ecInf
      | some dinv =>
          let slope := num * dinv % ecP
          let x3 := (((slope * slope : Nat) : Int) - 2 * P.x) % (ecP : Int)
          let y3 := ((slope : Int) * ((P.x : Int) - x3) - P.y) % (ecP : Int)
          ⟨x3.toNat, y3.toNat, false⟩

/-- `EllipticCurveDSS._point_add` (lines 82-118). Identity arguments are
returned unchanged; equal `x` routes to doubling (equal `y`) or the
identity; a zero slope denominator or failing inverse yields the
identity. -/
def pointAdd (P Q : ECPoint) : ECPoint :=
  if P.infinity then Q
  else if Q.infinity then P
  else if P.x = Q.x then
    if P.y = Q.y then pointDouble P else ecInf
  else
    let num := ((Q.y : Int) - P.y) % (ecP : Int)
    let den := ((Q.x : Int) - P.x) % (ecP : Int)
    if den = 0 then ecInf
    else
      match modInv? den.toNat ecP with
      | none => ecInf
      | some dinv =>
          let slope := (num * dinv) % (ecP : Int)
          let x3 := (slope * slope - P.x - Q.x) % (ecP : Int)
          let y3 := (slope * ((P.x : Int) - x3) - P.y) % (ecP : Int)
          ⟨x3.toNat, y3.toNat, false⟩

/-- The double-and-add loop of `_scalar_multiply` (lines 172-181), with
explicit fuel; the callers pass fuel `≥` the normalized scalar, which
bounds the iteration count (the scalar halves each round). -/
def scalarLoop : Nat → Nat → ECPoint → ECPoint → ECPoint
  | 0, _, result, _ => result
  | fuel + 1, k, result, addend =>
    if k = 0 then result
    else scalarLoop fuel (k >>> 1)
      (if k % 2 = 1 then pointAdd result addend else result)
      (pointDouble addend)

/-- `EllipticCurveDSS._scalar_multiply` (lines 148-181): `k = 0` yields
the identity, `k = 1` yields `P` unchanged; a negative `k` is replaced by
`(-k) % n`, then `k` is reduced `% n` again, and the double-and-add loop
runs on the result. -/
def scalarMultiply (k : Int) (P : ECPoint) : ECPoint :=
  if k = 0 then ecInf
  else if k = 1 then P
  else
    let k1 : Int := if k < 0 then (-k) % (ecN : Int) else k
    let k2 : Int := k1 % (ecN : Int)
    if k2 = 0 then ecInf
    else scalarLoop k2.toNat k2.toNat ecInf P

/-- The argument string of `_hash_message(R.x, message)` (lines 183-197):
`str(R.x) + '||' + message`, as bytes (124 is `'|'`). -/
def ecHashInput (xR : Nat) (message : String) : List Nat :=
  natBytes xR ++ [124, 124] ++ strBytes message

/-- `EllipticCurveDSS._hash_message`: SHA-256 of the joined argument
string, as an integer reduced `% n` (line 197). -/
def ecHash (data : List Nat) : Nat := sha256Nat data % ecN

/-- One attempt of `EllipticCurveDSS.sign_message` (lines 243-321), as a
function of the message, the private key point `G` and the sampled
`k, u ∈ [1, n-1]`. `none` marks every branch in which the source instead
re-invokes `sign_message` recursively with fresh randomness and no depth
limit (`R` at infinity, `Z` at infinity, zero denominator, failing
inverse, `s = 0`); `some (R, s, Z)` is the returned signature. -/
def ecSignAttempt (message : String) (G : ECPoint) (k u : Nat) : Option (ECPoint × Nat × ECPoint) :=
  let R := scalarMultiply (k : Int) G
  if R.infinity then none
  else
    let Z := scalarMultiply (u : Int) G
    if Z.infinity then none
    else
      let e := ecHash (ecHashInput R.x message)
      let xR := R.x % ecN
      let xZ := Z.x % ecN
      let numerator := (u * xR + G.x * xZ) % ecN
      let denominator := (k * (e + xR)) % ecN
      if denominator = 0 then none
      else
        match modInv? denominator ecN with
        | none => none
        | some dinv =>
            let s := numerator * dinv % ecN
            if s = 0 then none else some (R, s, Z)

/-- The two sides of the scalar check of `verify_signature`
(lines 360-365): `left = (s * e * x_R) % n` and
`right = (x_R * x_Z) % n`. -/
def ecVerifyEqValues (message : String) (sig : ECPoint × Nat × ECPoint) : Nat × Nat :=
  let R := sig.1
  let s := sig.2.1
  let Z := sig.2.2
  let e := ecHash (ecHashInput R.x message)
  let xR := R.x % ecN
  let xZ := Z.x % ecN
  ((s * e * xR) % ecN, (xR * xZ) % ecN)

/-- `EllipticCurveDSS.verify_signature` (lines 323-403), as a function of
the message, the signature `(R, s, Z)` and the public key (which the
source never uses past its parameter list). The scalar check passes when
the two sides are equal or their difference is divisible by 1000
(line 378); the curve check requires `s·R + e·Z` not at infinity
(line 379); both must pass. -/
def ecVerifySignature (message : String) (sig : ECPoint × Nat × ECPoint)
    (publicKey : ECPoint) : Bool :=
  let R := sig.1
  let s := sig.2.1
  let Z := sig.2.2
  if R.infinity || Z.infinity || s == 0 then false
  else
    let e := ecHash (ecHashInput R.x message)
    let lr := ecVerifyEqValues message sig
    let sR := scalarMultiply (s : Int) R
    let eZ := scalarMultiply (e : Int) Z
    let verificationPoint := pointAdd sR eZ
    let basicCheck := (lr.1 == lr.2) || (((lr.1 : Int) - lr.2).natAbs % 1000 == 0)
    let curveCheck := !verificationPoint.infinity
    basicCheck && curveCheck

/-- Point negation as the specification defines it (§8):
`negate(P) = (P.x, (-P.y) mod p)`; it is not a function of the source,
which only uses it implicitly through the `P + (-P) = O` behaviour. -/
def negatePoint (P : ECPoint) : ECPoint :=
  ⟨P.x, ((-(P.y : Int)) % (ecP : Int)).toNat, false⟩

/-! ## Helper lemmas about the executable arithmetic -/

lemma bitLenAux_lt (fuel : Nat) : ∀ n, n ≤ fuel → n < 2 ^ bitLenAux fuel n := by
  induction fuel with
  | zero =>
    intro n hn
    interval_cases n
    simp [bitLenAux]
  | succ f ih =>
    intro n hn
    by_cases h0 : n = 0
    · simp [bitLenAux, h0]
    · have hrec : bitLenAux (f + 1) n = bitLenAux f (n / 2) + 1 := by
        simp [bitLenAux, h0]
      have hhalf : n / 2 ≤ f := by omega
      have := ih (n / 2) hhalf
      rw [hrec, pow_succ]
      omega

lemma bitLen_lt (n : Nat) : n < 2 ^ bitLen n :=
  bitLenAux_lt (n + 1) n (Nat.le_succ n)

lemma noDivN_spec (n : Nat) : ∀ fuel lo cnt, cnt ≤ 2 ^ fuel →
    (noDivN n fuel lo cnt = true ↔ ∀ m, lo ≤ m → m < lo + cnt → n % m ≠ 0) := by
  intro fuel
  induction fuel with
  | zero =>
    intro lo cnt hcnt
    have h1 : cnt ≤ 1 := by simpa using hcnt
    match cnt, h1 with
    | 0, _ =>
      simp [noDivN]
      omega
    | 1, _ =>
      show decide (¬ n % lo = 0) = true ↔ _
      simp only [decide_eq_true_eq]
      constructor
      · intro h m hm1 hm2
        have : m = lo := by omega
        simpa [this] using h
      · intro h
        exact h lo le_rfl (by omega)
  | succ f ih =>
    intro lo cnt hcnt
    match cnt with
    | 0 =>
      simp [noDivN]
      omega
    | 1 =>
      show decide (¬ n % lo = 0) = true ↔ _
      simp only [decide_eq_true_eq]
      constructor
      · intro h m hm1 hm2
        have : m = lo := by omega
        simpa [this] using h
      · intro h
        exact h lo le_rfl (by omega)
    | c + 2 =>
      have hpow : 2 ^ (f + 1) = 2 ^ f + 2 ^ f := by rw [pow_succ]; omega
      have hl : (c + 2) / 2 ≤ 2 ^ f := by omega
      have hr : (c + 2) - (c + 2) / 2 ≤ 2 ^ f := by omega
      show (noDivN n f lo ((c + 2) / 2) && noDivN n f (lo + (c + 2) / 2) ((c + 2) - (c + 2) / 2)) = true ↔ _
      rw [Bool.and_eq_true, ih lo _ hl, ih (lo + (c + 2) / 2) _ hr]
      constructor
      · rintro ⟨hL, hR⟩ m hm1 hm2
        by_cases hm : m < lo + (c + 2) / 2
        · exact hL m hm1 hm
        · exact hR m (by omega) (by omega)
      · intro h
        exact ⟨fun m hm1 hm2 => h m hm1 (by omega),
               fun m hm1 hm2 => h m (by omega) (by omega)⟩

lemma isPrimeNat_iff (n : Nat) : isPrimeNat n = true ↔ Nat.Prime n := by
  unfold isPrimeNat
  set B := 1 <<< ((bitLen n + 1) / 2) with hB
  have hBpow : B = 2 ^ ((bitLen n + 1) / 2) := by rw [hB, Nat.shiftLeft_eq, one_mul]
  have hBB : n < B * B := by
    have h1 : 2 ^ bitLen n ≤ B * B := by
      rw [hBpow, ← pow_add]
      exact Nat.pow_le_pow_right (by omega) (by omega)
    have := bitLen_lt n
    omega
  have hcnt : min (B - 1) (n - 2) ≤ 2 ^ bitLen n := by
    have := bitLen_lt n
    omega
  rw [Bool.and_eq_true, decide_eq_true_eq, noDivN_spec n (bitLen n) 2 _ hcnt]
  constructor
  · rintro ⟨h2, hnd⟩
    by_cases hcase : n - 2 ≤ B - 1
    · -- the whole range [2, n) is checked
      have hmin : min (B - 1) (n - 2) = n - 2 := by omega
      rw [Nat.prime_def_lt]
      refine ⟨h2, fun m hm hdvd => ?_⟩
      by_contra hm1
      have hm2 : 2 ≤ m := by
        rcases Nat.lt_or_ge m 2 with h | h
        · interval_cases m
          · simp at hdvd; omega
          · omega
        · exact h
      have := hnd m hm2 (by omega)
      exact this ((Nat.mod_eq_zero_of_dvd hdvd).symm ▸ rfl)
    · -- the range [2, B] ⊇ [2, √n] is checked
      have hmin : min (B - 1) (n - 2) = B - 1 := by omega
      have hBpos : 1 ≤ B := by rw [hBpow]; exact Nat.one_le_two_pow
      rw [Nat.prime_def_le_sqrt]
      refine ⟨h2, fun m hm hms hdvd => ?_⟩
      have hsq : Nat.sqrt n < B := Nat.sqrt_lt'.mpr (by rw [pow_two]; exact hBB)
      have := hnd m hm (by omega)
      exact this ((Nat.mod_eq_zero_of_dvd hdvd).symm ▸ rfl)
  · intro hp
    refine ⟨hp.two_le, fun m hm1 hm2 hmod => ?_⟩
    have hdvd : m ∣ n := Nat.dvd_of_mod_eq_zero hmod
    have hmn : m < n := by
      have h2n := hp.two_le
      omega
    rcases (Nat.Prime.eq_one_or_self_of_dvd hp m hdvd) with h | h
    · omega
    · omega

lemma egcd_spec (fuel : Nat) : ∀ (a b : Nat), b ≤ fuel →
    (a : Int) * (egcd fuel a b).1 + (b : Int) * (egcd fuel a b).2.1 = ((egcd fuel a b).2.2 : Int) ∧
    (egcd fuel a b).2.2 = Nat.gcd b a := by
  induction fuel with
  | zero =>
    intro a b hb
    have : b = 0 := by omega
    subst this
    simp [egcd]
  | succ f ih =>
    intro a b hb
    by_cases h0 : b = 0
    · subst h0
      simp [egcd]
    · have hred : egcd (f + 1) a b =
          ((egcd f b (a % b)).2.1,
           (egcd f b (a % b)).1 - (a / b : Nat) * (egcd f b (a % b)).2.1,
           (egcd f b (a % b)).2.2) := by
        simp [egcd, h0]
      have hmod : a % b ≤ f := by
        have : a % b < b := Nat.mod_lt a (by omega)
        omega
      obtain ⟨ihEq, ihGcd⟩ := ih b (a % b) hmod
      rw [hred]
      constructor
      · have hdiv : (a : Int) = (b : Int) * ((a / b : Nat) : Int) + ((a % b : Nat) : Int) := by
          exact_mod_cast (Nat.div_add_mod a b).symm
        linear_combination ihEq + (egcd f b (a % b)).2.1 * hdiv
      · rw [ihGcd, Nat.gcd_rec b a]

lemma modInv?_correct (a m y : Nat) (hm : 1 < m) (h : modInv? a m = some y) :
    a * y % m = 1 := by
  unfold modInv? at h
  obtain ⟨hEq, hGcd⟩ := egcd_spec m a m le_rfl
  by_cases hg : (egcd m a m).2.2 = 1
  · rw [if_pos hg] at h
    have hmne : (m : Int) ≠ 0 := by exact_mod_cast (by omega : m ≠ 0)
    have hynn : (0 : Int) ≤ (egcd m a m).1 % (m : Int) := Int.emod_nonneg _ hmne
    have hyy : ((egcd m a m).1 % (m : Int)).toNat = y := Option.some_inj.mp h
    have hy : (y : Int) = (egcd m a m).1 % (m : Int) := by
      rw [← hyy]
      exact Int.toNat_of_nonneg hynn
    have hax : (a : Int) * (egcd m a m).1 = 1 - (m : Int) * (egcd m a m).2.1 := by
      rw [hg] at hEq
      push_cast at hEq
      linarith
    have key : ((a * y % m : Nat) : Int) = 1 := by
      push_cast
      rw [hy]
      calc (a : Int) * ((egcd m a m).1 % (m : Int)) % (m : Int)
          = ((a : Int) % m * ((egcd m a m).1 % (m : Int) % m)) % m := Int.mul_emod _ _ _
        _ = ((a : Int) % m * ((egcd m a m).1 % m)) % m := by
              rw [Int.emod_emod_of_dvd _ dvd_rfl]
        _ = ((a : Int) * (egcd m a m).1) % m := (Int.mul_emod _ _ _).symm
        _ = (1 - (m : Int) * (egcd m a m).2.1) % m := by rw [hax]
        _ = (1 + (m : Int) * (-(egcd m a m).2.1)) % m := by rw [sub_eq_add_neg, ← mul_neg]
        _ = 1 % m := Int.add_mul_emod_self_left 1 (m : Int) (-(egcd m a m).2.1)
        _ = 1 := Int.emod_eq_of_lt (by omega) (by exact_mod_cast hm)
    exact_mod_cast key
  · rw [if_neg hg] at h
    exact absurd h (by simp)

lemma modInv?_eq_some_of_gcd (a m : Nat) (h : Nat.gcd a m = 1) :
    ∃ y, modInv? a m = some y := by
  unfold modInv?
  obtain ⟨-, hGcd⟩ := egcd_spec m a m le_rfl
  have hone : (egcd m a m).2.2 = 1 := by rw [hGcd, Nat.gcd_comm]; exact h
  simp only [hone, if_pos]
  exact ⟨_, rfl⟩

/-! ## Characterisation of `ffDeriveX` -/

lemma ffDeriveXAux_form (p q : Nat) : ∀ (l : List Nat) (x0 : Nat),
    ffDeriveXAux p q l x0 = x0 ∨
    ∃ a ∈ l, ffDeriveXAux p q l x0 = a ^ ((p - 1) / q) % p := by
  intro l
  induction l with
  | nil => intro x0; left; rfl
  | cons a rest ih =>
    intro x0
    by_cases hx : x0 = 1
    · have hstep : ffDeriveXAux p q (a :: rest) x0 =
          ffDeriveXAux p q rest (a ^ ((p - 1) / q) % p) := by
        simp [ffDeriveXAux, hx]
      rcases ih (a ^ ((p - 1) / q) % p) with h | ⟨b, hb, hf⟩
      · right; exact ⟨a, by simp, by rw [hstep, h]⟩
      · right; exact ⟨b, by simp [hb], by rw [hstep, hf]⟩
    · left; simp [ffDeriveXAux, hx]

lemma ffDeriveX_good (p q a0 : Nat) (redraws : List Nat) (hp : Nat.Prime p) (hp2 : 2 < p)
    (ha : ∀ a ∈ a0 :: redraws, 2 ≤ a ∧ a ≤ p - 1) :
    0 < ffDeriveX p q a0 redraws ∧ ffDeriveX p q a0 redraws < p ∧
      ¬ p ∣ ffDeriveX p q a0 redraws := by
  have ppos : 0 < p := by omega
  have hgood : ∀ a, 2 ≤ a → a ≤ p - 1 →
      a ^ ((p - 1) / q) % p < p ∧ ¬ p ∣ (a ^ ((p - 1) / q) % p) := by
    intro a h2 hle
    refine ⟨Nat.mod_lt _ ppos, ?_⟩
    rw [Nat.dvd_mod_iff dvd_rfl]
    intro hdvd
    have hpa : p ∣ a := hp.dvd_of_dvd_pow hdvd
    have : p ≤ a := Nat.le_of_dvd (by omega) hpa
    omega
  have hx1 : ffDeriveXAux p q (redraws.take 10) (a0 ^ ((p - 1) / q) % p) < p ∧
      ¬ p ∣ ffDeriveXAux p q (redraws.take 10) (a0 ^ ((p - 1) / q) % p) := by
    rcases ffDeriveXAux_form p q (redraws.take 10) (a0 ^ ((p - 1) / q) % p)
      with hform | ⟨b, hb, hform⟩
    · rw [hform]
      exact hgood a0 (ha a0 (by simp)).1 (ha a0 (by simp)).2
    · rw [hform]
      have hbmem : b ∈ redraws := List.take_subset 10 redraws hb
      exact hgood b (ha b (by simp [hbmem])).1 (ha b (by simp [hbmem])).2
  unfold ffDeriveX
  by_cases h1 : ffDeriveXAux p q (redraws.take 10) (a0 ^ ((p - 1) / q) % p) = 1
  · simp only [h1, if_pos]
    refine ⟨by omega, hp2, fun hdvd => ?_⟩
    have : p ≤ 2 := Nat.le_of_dvd (by omega) hdvd
    omega
  · simp only [if_neg h1]
    refine ⟨?_, hx1.1, hx1.2⟩
    rcases Nat.eq_zero_or_pos (ffDeriveXAux p q (redraws.take 10) (a0 ^ ((p - 1) / q) % p))
      with h0 | h0
    · exact absurd (h0 ▸ dvd_zero p) hx1.2
    · exact h0

/-! ## The claims -/

/-- Claim C1 (code_bug): the round-trip property `verify(m, sign(m, sk), pk) = true`
fails on the finite-field engine. With the generator's fallback parameters
`(p, q) = (43, 7)`, key generation at draw `a = 3` returns the key pair
`(x, y) = (41, 41)`; signing `"test"` with draws `k = 3, u = 1, v = 1`
returns the signature `(35, 1, 11)` (its denominator was 0 and was silently
replaced by 1); verifying that returned signature rejects it. -/
theorem ff_roundtrip_fails_on_returned_signature :
    ffKeyGeneration 43 7 3 [] = (41, 41) ∧
    ffSign 43 7 "test" 41 3 1 1 = (35, 1, 11) ∧
    ffVerify 43 7 "test" (35, 1, 11) 41 = false :=
  ⟨by rfl, by rfl, by rfl⟩

/-- Claim C2 (code_bug): elliptic-curve verification does not insist on the
exact equation: the tolerance fallback `abs(left - right) % 1000 == 0`
accepts a signature whose two equation sides differ (by exactly 1000 here),
as long as `s·R + e·Z` is not the identity. -/
theorem ec_verify_tolerance_accepts_inexact_equation :
    ecVerifySignature "hello0"
      (⟨2, 7, false⟩, 1,
       ⟨100296188046947141696674840620955117554687571120532326515262123739758844979108, 0, false⟩)
      ⟨1, 1, false⟩ = true ∧
    (ecVerifyEqValues "hello0"
      (⟨2, 7, false⟩, 1,
       ⟨100296188046947141696674840620955117554687571120532326515262123739758844979108, 0, false⟩)).1 ≠
    (ecVerifyEqValues "hello0"
      (⟨2, 7, false⟩, 1,
       ⟨100296188046947141696674840620955117554687571120532326515262123739758844979108, 0, false⟩)).2 :=
  ⟨by rfl, by decide⟩

/-- Claim C3 (code_bug): at the private-key point `(5, 0)` and draw `k = 2`,
the scalar multiple `R = k·G` is the identity, so the signing attempt is
degenerate (`none`): at this point the source re-invokes `sign_message`
recursively (line 271) with no depth limit, and no `SigningExhaustedError`
exists anywhere in the code. -/
theorem ec_sign_degenerate_sample_recurses :
    scalarMultiply 2 ⟨5, 0, false⟩ = ecInf ∧
    ecSignAttempt "test" ⟨5, 0, false⟩ 2 1 = none :=
  ⟨by rfl, by rfl⟩

/-- Claim C4 (code_bug): in finite-field signing with `(p, q) = (43, 7)`,
`x = 41`, message `"test"` and draw `k = 3`, the denominator
`(k·(e+r)) mod q` is 0; the source replaces it by 1 (lines 233-234) and
returns the signature `(35, 1, 11)` computed from that same attempt — it
never restarts with fresh randomness. -/
theorem ff_sign_zero_denominator_not_restarted :
    ffSignDenominator 43 7 "test" 41 3 = 0 ∧
    ffSign 43 7 "test" 41 3 1 1 = (35, 1, 11) :=
  ⟨by rfl, by rfl⟩

/-- Claim C5 (corrected), counterexample: for `bit_length = 8` and sampled
prime `q = 131` (a valid `randprime` output for `q_bits = 8`), every
`k ∈ [2, 100)` fails the search condition, yet `_generate_parameters`
returns the fallback parameters `(23, 11)` normally instead of raising
`ParameterGenerationError`. -/
theorem ff_param_search_exhausted_returns_normally :
    isPrimeNat 131 = true ∧ findP 131 8 = none ∧
    ffGenerateParameters 8 131 = (23, 11) :=
  ⟨by rfl, by rfl, by rfl⟩

/-- Claim C5 (corrected), amended: when the search is exhausted (or skipped
because `bit_length > 512`), parameter generation returns the fixed
fallback parameters `(p, q) = (23, 11)` as a normal result; no exception
is raised. -/
theorem ff_generate_parameters_fallback_value (bitLength q : Nat)
    (h : 512 < bitLength ∨ findP q bitLength = none) :
    ffGenerateParameters bitLength q = (23, 11) := by
  unfold ffGenerateParameters
  rcases h with h | h
  · rw [if_neg (by omega)]
  · by_cases hb : bitLength ≤ 512
    · rw [if_pos hb, h]
    · rw [if_neg hb]

/-- Witness for `ff_generate_parameters_fallback_value` at
`bit_length = 513`. -/
theorem ff_generate_parameters_fallback_value_witness :
    ffGenerateParameters 513 11 = (23, 11) :=
  ff_generate_parameters_fallback_value 513 11 (Or.inl (by decide))

/-- Claim C6 (confirmed): for a prime modulus `p > 2` and sampler-conform
draws (`a ∈ [2, p-1]`, the range of `secrets.randbelow(p - 2) + 2`), every key pair `(x, y)` returned by finite-field
key generation satisfies `x^x · y ≡ 1 (mod p)`, i.e. `y ≡ x^(-x) (mod p)`;
and the documented fallback value `x^((p-1-x) mod (p-1)) mod p` satisfies
the same equation, so the property also holds on the path where modular
inversion fails. -/
theorem ff_keygen_inverse_equation (p q a0 : Nat) (redraws : List Nat)
    (hp : Nat.Prime p) (hp2 : 2 < p)
    (ha : ∀ a ∈ a0 :: redraws, 2 ≤ a ∧ a ≤ p - 1) :
    ((ffKeyGeneration p q a0 redraws).1 ^ (ffKeyGeneration p q a0 redraws).1 *
       (ffKeyGeneration p q a0 redraws).2) % p = 1 ∧
    ((ffKeyGeneration p q a0 redraws).1 ^ (ffKeyGeneration p q a0 redraws).1 *
       ffKeygenFallbackY p (ffKeyGeneration p q a0 redraws).1) % p = 1 := by
  obtain ⟨hx0, hxp, hxnd⟩ := ffDeriveX_good p q a0 redraws hp hp2 ha
  set x := ffDeriveX p q a0 redraws with hxdef
  have hfst : (ffKeyGeneration p q a0 redraws).1 = x := rfl
  have hsnd : (ffKeyGeneration p q a0 redraws).2 = ffDeriveY p x := rfl
  rw [hfst, hsnd]
  have hxx : ¬ p ∣ x ^ x := fun hdvd => hxnd (hp.dvd_of_dvd_pow hdvd)
  have hgcd : Nat.gcd (x ^ x % p) p = 1 := by
    have hnd : ¬ p ∣ (x ^ x % p) := by
      rw [Nat.dvd_mod_iff dvd_rfl]
      exact hxx
    exact Nat.Coprime.symm ((Nat.Prime.coprime_iff_not_dvd hp).mpr hnd)
  constructor
  · obtain ⟨y, hy⟩ := modInv?_eq_some_of_gcd (x ^ x % p) p hgcd
    have hYdef : ffDeriveY p x = y := by unfold ffDeriveY; rw [hy]
    rw [hYdef]
    have hcor := modInv?_correct (x ^ x % p) p y hp.one_lt hy
    rwa [Nat.mod_mul_mod] at hcor
  · unfold ffKeygenFallbackY
    have hexp : (p - 1 - x) % (p - 1) = p - 1 - x := Nat.mod_eq_of_lt (by omega)
    rw [hexp]
    have hco : Nat.Coprime x p :=
      Nat.Coprime.symm ((Nat.Prime.coprime_iff_not_dvd hp).mpr hxnd)
    have hfermat : x ^ (p - 1) % p = 1 := by
      have hmodeq := Nat.ModEq.pow_totient hco
      rw [Nat.totient_prime hp] at hmodeq
      have h1 : 1 % p = 1 := Nat.mod_eq_of_lt (by omega)
      unfold Nat.ModEq at hmodeq
      rw [h1] at hmodeq
      exact hmodeq
    calc x ^ x * (x ^ (p - 1 - x) % p) % p
        = (x ^ x % p) * (x ^ (p - 1 - x) % p % p) % p := Nat.mul_mod _ _ _
      _ = (x ^ x % p) * (x ^ (p - 1 - x) % p) % p := by
            rw [Nat.mod_mod_of_dvd _ dvd_rfl]
      _ = x ^ x * x ^ (p - 1 - x) % p := (Nat.mul_mod _ _ _).symm
      _ = x ^ (x + (p - 1 - x)) % p := by rw [pow_add]
      _ = x ^ (p - 1) % p := by rw [show x + (p - 1 - x) = p - 1 from by omega]
      _ = 1 := hfermat

/-- Witness for `ff_keygen_inverse_equation` at `(p, q) = (43, 7)`,
draw `a = 3`. -/
theorem ff_keygen_inverse_equation_witness :
    Nat.Prime 43 ∧
    ((ffKeyGeneration 43 7 3 []).1 ^ (ffKeyGeneration 43 7 3 []).1 *
       (ffKeyGeneration 43 7 3 []).2) % 43 = 1 ∧
    ((ffKeyGeneration 43 7 3 []).1 ^ (ffKeyGeneration 43 7 3 []).1 *
       ffKeygenFallbackY 43 (ffKeyGeneration 43 7 3 []).1) % 43 = 1 :=
  ⟨by decide,
   (ff_keygen_inverse_equation 43 7 3 [] (by decide) (by decide) (by decide)).1,
   (ff_keygen_inverse_equation 43 7 3 [] (by decide) (by decide) (by decide)).2⟩

/-- Claim C7 (confirmed): for every requested bit length and every prime
`q` handed over by `randprime`, the parameter pair returned by
`_generate_parameters` — from the successful search as well as from the
`(23, 11)` fallback — consists of two primes with `q` dividing `p - 1`;
the same holds for the exception-path fallback `(43, 7)`. -/
theorem ff_generated_parameters_prime_divisibility (bitLength q : Nat) (hq : Nat.Prime q) :
    (Nat.Prime (ffGenerateParameters bitLength q).1 ∧
     Nat.Prime (ffGenerateParameters bitLength q).2 ∧
     (ffGenerateParameters bitLength q).2 ∣ ((ffGenerateParameters bitLength q).1 - 1)) ∧
    (Nat.Prime ffExceptionFallback.1 ∧ Nat.Prime ffExceptionFallback.2 ∧
     ffExceptionFallback.2 ∣ (ffExceptionFallback.1 - 1)) := by
  constructor
  · unfold ffGenerateParameters
    by_cases hb : bitLength ≤ 512
    · rw [if_pos hb]
      cases hfind : findP q bitLength with
      | none => norm_num
      | some p =>
        unfold findP at hfind
        rw [Option.map_eq_some'] at hfind
        obtain ⟨k, hk, hkp⟩ := hfind
        have hpred := List.find?_some hk
        rw [Bool.and_eq_true, decide_eq_true_eq] at hpred
        have hprime : Nat.Prime (k * q + 1) := (isPrimeNat_iff _).mp hpred.1
        rw [← hkp]
        exact ⟨hprime, hq, by simp [Dvd.intro k rfl]⟩
    · rw [if_neg hb]; norm_num
  · refine ⟨by norm_num [ffExceptionFallback], by norm_num [ffExceptionFallback], ?_⟩
    norm_num [ffExceptionFallback]

/-- Witness for `ff_generated_parameters_prime_divisibility` at
`bit_length = 16`, `q = 131`. -/
theorem ff_generated_parameters_prime_divisibility_witness :
    Nat.Prime 131 ∧
    (Nat.Prime (ffGenerateParameters 16 131).1 ∧
     Nat.Prime (ffGenerateParameters 16 131).2 ∧
     (ffGenerateParameters 16 131).2 ∣ ((ffGenerateParameters 16 131).1 - 1)) :=
  ⟨by decide, (ff_generated_parameters_prime_divisibility 16 131 (by decide)).1⟩

/-- Claim C8 (corrected), counterexample: requesting `bit_length = 16` with
the valid `randprime` sample `q = 131` produces `p = 263`, which has 9
bits (`2^8 ≤ 263 < 2^9`), not 16 — the search only demands
`p.bit_length() ≤ bit_length`. -/
theorem ff_param_bitlength_not_exact :
    ffGenerateParameters 16 131 = (263, 131) ∧ bitLen 263 = 9 ∧
    2 ^ 8 ≤ 263 ∧ (263 : Nat) < 2 ^ 9 :=
  ⟨by rfl, by rfl, by decide, by decide⟩

/-- Claim C8 (corrected), amended: the prime found by the parameter search
has at most (not exactly) `bit_length` bits. -/
theorem ff_param_search_bitlen_le (q bitLength p : Nat)
    (h : findP q bitLength = some p) : bitLen p ≤ bitLength := by
  unfold findP at h
  rw [Option.map_eq_some'] at h
  obtain ⟨k, hk, hkp⟩ := h
  have hpred := List.find?_some hk
  rw [Bool.and_eq_true, decide_eq_true_eq] at hpred
  rw [← hkp]
  exact hpred.2

/-- Witness for `ff_param_search_bitlen_le` at `q = 131`,
`bit_length = 16`. -/
theorem ff_param_search_bitlen_le_witness :
    findP 131 16 = some 263 ∧ bitLen 263 ≤ 16 :=
  ⟨by rfl, ff_param_search_bitlen_le 131 16 263 (by rfl)⟩

/-- Claim C9 (confirmed): for every non-identity point `P` (whatever its
coordinates), `add(P, O) = P`, and `add(P, negate(P)) = O` where
`negate(P) = (P.x, (-P.y) mod p)` — including `P.y = 0`, where `P` equals
its own negation and the doubling branch hits the zero tangent
denominator. -/
theorem ec_add_identity_and_negate (P : ECPoint) (h : P.infinity = false) :
    pointAdd P ecInf = P ∧ pointAdd P (negatePoint P) = ecInf := by
  obtain ⟨px, py, pinf⟩ := P
  have hinf : pinf = false := h
  subst hinf
  constructor
  · rfl
  · have hecP : (0 : Int) < (ecP : Int) := by
      have h0 : 0 < ecP := by decide
      exact_mod_cast h0
    by_cases hy : py = ((-(py : Int)) % (ecP : Int)).toNat
    · have hynn : (0 : Int) ≤ (-(py : Int)) % (ecP : Int) :=
        Int.emod_nonneg _ (by omega)
      have hyInt : (py : Int) = (-(py : Int)) % (ecP : Int) := by
        conv_lhs => rw [hy]
        exact Int.toNat_of_nonneg hynn
      have hdefn : (-(py : Int)) % (ecP : Int) =
          -(py : Int) - (ecP : Int) * ((-(py : Int)) / (ecP : Int)) := Int.emod_def _ _
      have hdvdI : (ecP : Int) ∣ ((2 * py : Nat) : Int) := by
        refine ⟨-((-(py : Int)) / (ecP : Int)), ?_⟩
        push_cast
        rw [hdefn] at hyInt
        linarith
      have hdvdN : ecP ∣ 2 * py := by exact_mod_cast hdvdI
      have hmod : (2 * py) % ecP = 0 := Nat.mod_eq_zero_of_dvd hdvdN
      have hdouble : pointDouble ⟨px, py, false⟩ = ecInf := by
        unfold pointDouble
        simp [hmod]
      unfold pointAdd
      simp [negatePoint, ← hy, hdouble]
    · unfold pointAdd
      simp [negatePoint, hy]

/-- Witness for `ec_add_identity_and_negate` at `P = (2, 7)`. -/
theorem ec_add_identity_and_negate_witness :
    (⟨2, 7, false⟩ : ECPoint).infinity = false ∧
    pointAdd ⟨2, 7, false⟩ ecInf = ⟨2, 7, false⟩ ∧
    pointAdd ⟨2, 7, false⟩ (negatePoint ⟨2, 7, false⟩) = ecInf :=
  ⟨by rfl, (ec_add_identity_and_negate ⟨2, 7, false⟩ rfl).1,
   (ec_add_identity_and_negate ⟨2, 7, false⟩ rfl).2⟩

/-- Claim C10 (confirmed): for every point `P` and positive `k` with
`k mod n ∉ {0, 1}`, multiplying by the negative scalar `-k` gives the same
point as multiplying by `k mod n`: the source normalizes a negative scalar
to `(-k) % n` (its absolute value reduced into `[0, n)`), so `-k` and
`k mod n` drive the identical double-and-add loop, and `(-k)·P` is not the
negation of `(k·P)`. -/
theorem ec_scalar_multiply_of_neg_scalar (k : Nat) (P : ECPoint)
    (h0 : 0 < k) (h1 : k % ecN ≠ 0) (h2 : k % ecN ≠ 1) :
    scalarMultiply (-(k : Int)) P = scalarMultiply ((k % ecN : Nat) : Int) P := by
  have hcast : ((k % ecN : Nat) : Int) = (k : Int) % (ecN : Int) := by push_cast; rfl
  have e0 : ¬(-(k : Int) = 0) := by omega
  have e1 : ¬(-(k : Int) = 1) := by omega
  have e2 : -(k : Int) < 0 := by omega
  have m0 : ¬(((k % ecN : Nat) : Int) = 0) := by exact_mod_cast h1
  have m1 : ¬(((k % ecN : Nat) : Int) = 1) := by exact_mod_cast h2
  have m2 : ¬(((k % ecN : Nat) : Int) < 0) := not_lt.mpr (Int.natCast_nonneg _)
  unfold scalarMultiply
  rw [if_neg e0, if_neg e1, if_neg m0, if_neg m1, if_pos e2, if_neg m2, hcast]
  simp only [Int.neg_neg]

/-- Witness for `ec_scalar_multiply_of_neg_scalar` at `k = 5`,
`P = (2, 7)`. -/
theorem ec_scalar_multiply_of_neg_scalar_witness :
    (0 : Nat) < 5 ∧ 5 % ecN ≠ 0 ∧ 5 % ecN ≠ 1 ∧
    scalarMultiply (-((5 : Nat) : Int)) ⟨2, 7, false⟩ =
      scalarMultiply (((5 % ecN : Nat)) : Int) ⟨2, 7, false⟩ :=
  ⟨by decide, by decide, by decide,
   ec_scalar_multiply_of_neg_scalar 5 ⟨2, 7, false⟩ (by decide) (by decide) (by decide)⟩

/-- Sanity check of the SHA-256 embedding against the FIPS 180-4 test
vector for `"abc"`
(`ba7816bf8f01cfea414140de5dae2223b00361a396177a9cb410ff61f20015ad`). -/
theorem sha256Nat_abc_test_vector :
    sha256Nat (strBytes "abc") =
      84342368487090800366523834928142263660104883695016514377462985829716817089965 := by
  rfl
